import Mathlib

/-!
Shallow embedding of the burr-hole detection pipeline
(`src/binarize.py`, `src/register.py`, `src/subtract.py`) and proofs of the
specification claims about it.

Conventions of the embedding:
* Voxel indices are integer triples; a grid of extents `(nx, ny, nz)` holds
  the indices with `0 ≤ i < nx`, `0 ≤ j < ny`, `0 ≤ k < nz`.
* Intensities are rationals (the scripts read images as `float32`; exact
  rational arithmetic stands in for floating point, which none of the claims
  quantify at the precision level).
* A `Geometry` is the physical-grid metadata of a SimpleITK image: extents,
  spacing, origin and the 3×3 direction matrix.  Following the ITK data
  model, column `j` of the direction matrix is the physical direction of
  voxel index axis `j`, and `Image.GetDirection()` returns the matrix
  flattened in row-major order, so the flat entry `3*r + c` is row `r`,
  column `c` of the matrix.
-/

namespace BurrholePipe

/-- A voxel index `(i, j, k)` in SimpleITK index order `(x, y, z)`. -/
abbrev Idx := ℤ × ℤ × ℤ

/-- A 3×3 rational matrix, `M r c` = row `r`, column `c`. -/
abbrev Mat3 := Fin 3 → Fin 3 → ℚ

/-- A rational 3-vector. -/
abbrev Vec3 := Fin 3 → ℚ

/-- Physical-grid metadata of an image: extents, spacing (mm), origin and
direction matrix (columns = physical directions of the index axes). -/
structure Geometry where
  size : Fin 3 → ℕ
  spacing : Vec3
  origin : Vec3
  direction : Mat3
deriving DecidableEq

/-- A scalar volume: geometry plus a total value function on indices.  Only
values at in-bounds indices are meaningful; every operation in the embedding
produces `0` outside the grid. -/
structure Volume where
  geom : Geometry
  vals : Idx → ℚ

/-- Component `c` of a voxel index. -/
def coord (p : Idx) : Fin 3 → ℤ
  | ⟨0, _⟩ => p.1
  | ⟨1, _⟩ => p.2.1
  | ⟨2, _⟩ => p.2.2

/-- The index is inside the grid of the given extents. -/
def inB (sz : Fin 3 → ℕ) (p : Idx) : Prop :=
  ∀ c : Fin 3, 0 ≤ coord p c ∧ coord p c < (sz c : ℤ)

instance (sz : Fin 3 → ℕ) (p : Idx) : Decidable (inB sz p) := by
  unfold inB; infer_instance

/-- All in-bounds indices of a grid, as a finite set. -/
def allIdx (sz : Fin 3 → ℕ) : Finset Idx :=
  Finset.Icc 0 ((sz 0 : ℤ) - 1) ×ˢ
    (Finset.Icc 0 ((sz 1 : ℤ) - 1) ×ˢ Finset.Icc 0 ((sz 2 : ℤ) - 1))

/-!
## AnatomicalAxisLocator: superior–inferior axis selection (`compute_head_cap_mask`)

The script slices the flat direction tuple as
`axes[j] = direction[3*j : 3*j+3]` and selects
`si_axis = max(range(3), key=lambda j: abs(axes[j][2]))`.
Because `GetDirection()` is row-major, `axes[j]` is row `j` of the direction
matrix, so the inspected quantity `axes[j][2]` is the matrix entry `D j 2`
(row `j`, column `2`), and Python's `max` keeps the earliest index on ties.
-/

/-- Voxel axis selected by the code: the first `j` maximising `|D j 2|`
(third entry of row `j` of the direction matrix, which is what
`direction[3*j+2]` denotes under the row-major flattening). -/
def siAxis (D : Mat3) : Fin 3 :=
  if |D 1 2| ≤ |D 0 2| ∧ |D 2 2| ≤ |D 0 2| then 0
  else if |D 2 2| ≤ |D 1 2| then 1 else 2

/-- Sign quantity used by the code to orient the head cap:
`si_dir = axes[si_axis][2]`, i.e. the matrix entry `D (siAxis D) 2`. -/
def siDir (D : Mat3) : ℚ := D (siAxis D) 2

/-- The axis the claim (and the spec) describe: the first `j` maximising the
absolute third component of COLUMN `j` of the direction matrix, i.e.
`|D 2 j|`.  Stated from the claim's words for comparison with `siAxis`. -/
def siAxisClaim (D : Mat3) : Fin 3 :=
  if |D 2 1| ≤ |D 2 0| ∧ |D 2 2| ≤ |D 2 0| then 0
  else if |D 2 2| ≤ |D 2 1| then 1 else 2

/-- The rows of a matrix are orthonormal (for a real square matrix this is
equivalent to orthonormal columns; both conjuncts are recorded so the
hypothesis is the usual orthogonality `DᵀD = DDᵀ = 1`). -/
def orthonormalDir (D : Mat3) : Prop :=
  (∀ c c' : Fin 3, (∑ r : Fin 3, D r c * D r c') = if c = c' then 1 else 0) ∧
  (∀ r r' : Fin 3, (∑ c : Fin 3, D r c * D r' c) = if r = r' then 1 else 0)

instance (D : Mat3) : Decidable (orthonormalDir D) := by
  unfold orthonormalDir; infer_instance

/-- The identity direction matrix. -/
def idDir : Mat3 := ![![1, 0, 0], ![0, 1, 0], ![0, 0, 1]]

/-- An orthonormal direction matrix (a coordinate permutation, i.e. a valid
rotation) on which the code's row-based selection disagrees with the claim's
column-based selection: its columns are `(0,0,1)`, `(1,0,0)`, `(0,1,0)`, so
voxel axis 0 points in the physical superior direction. -/
def permDir : Mat3 := ![![0, 1, 0], ![0, 0, 1], ![1, 0, 0]]

/-!
## Head-cap mask (`compute_head_cap_mask`)

The script computes `depth_slices = int(HEAD_CAP_DEPTH_MM / spacing[si_axis])`,
clamps it to `[1, n_slices]`, and marks the slab of that many slices at the
top (`si_dir > 0`: last slices; otherwise: first slices) along the selected
axis with `1`, everything else staying `0`.  The numpy axis permutation
(`GetArrayFromImage` returns `z, y, x` order and `axis_map` maps the SimpleITK
axis back to the numpy axis) is the identity on the underlying voxel set, so
the embedding works directly in SimpleITK index space.
-/

/-- Head-cap slab thickness in voxels, as the code computes it:
`int(depth / spacing)` then `if < 1 → 1` then `if > n → n`.  Python's `int()`
truncates toward zero; on a quotient `≥ 1` truncation equals the floor, and on
a quotient `< 1` (where truncation and floor can differ) both land in the
`< 1` clamp, so `Int.toNat ⌊·⌋` reproduces the clamped count on every input. -/
def capCount (n : ℕ) (spacing depth : ℚ) : ℕ :=
  let d0 := (⌊depth / spacing⌋).toNat
  let d1 := if d0 < 1 then 1 else d0
  if n < d1 then n else d1

/-- Configuration constant `HEAD_CAP_DEPTH_MM` of `binarize.py`. -/
def HEAD_CAP_DEPTH_MM : ℚ := 100

/-- The head-cap mask of `compute_head_cap_mask`: 1 exactly on the slices
`[start_slice, end_slice]` along the selected axis, where
`start_slice = max 0 (n - depth_slices)`, `end_slice = n - 1` when
`si_dir > 0`, and `start_slice = 0`, `end_slice = min (depth_slices - 1) (n - 1)`
otherwise; 0 on every other voxel (the mask array starts out all zero). -/
def headCap (g : Geometry) (depth : ℚ) : Idx → ℚ := fun p =>
  let a := siAxis g.direction
  let n := g.size a
  let ds := capCount n (g.spacing a) depth
  let lo : ℤ := if 0 < siDir g.direction then max 0 ((n : ℤ) - ds) else 0
  let hi : ℤ := if 0 < siDir g.direction then (n : ℤ) - 1
                else min ((ds : ℤ) - 1) ((n : ℤ) - 1)
  if inB g.size p ∧ lo ≤ coord p a ∧ coord p a ≤ hi then 1 else 0

/-- Slab thickness as claim C3 states it: `round(depth / spacing)` clamped to
at least 1 and at most the extent.  Stated from the claim's words for
comparison with `capCount`. -/
def capCountClaim (n : ℕ) (spacing depth : ℚ) : ℕ :=
  min n (max 1 (round (depth / spacing)).toNat)

/-- Head-cap mask as claim C3 describes it: the slab of `capCountClaim`
slices at the top end (positive sign: last slices, otherwise first slices) of
the selected axis.  Stated from the claim's words for comparison with
`headCap`. -/
def headCapClaim (g : Geometry) (depth : ℚ) : Idx → ℚ := fun p =>
  let a := siAxis g.direction
  let n := g.size a
  let ds := capCountClaim n (g.spacing a) depth
  let lo : ℤ := if 0 < siDir g.direction then (n : ℤ) - ds else 0
  let hi : ℤ := if 0 < siDir g.direction then (n : ℤ) - 1 else (ds : ℤ) - 1
  if inB g.size p ∧ lo ≤ coord p a ∧ coord p a ≤ hi then 1 else 0

/-- A geometry with identity direction, 200 slices of spacing 0.6 mm along
axis 2: `100 / 0.6 = 166.66…`, which the code truncates to 166 slices while
claim C3's `round` gives 167. -/
def capG0 : Geometry :=
  { size := ![1, 1, 200], spacing := ![1, 1, 3/5], origin := ![0, 0, 0],
    direction := idDir }

/-- The in-bounds slice indices the head cap keeps along the selected axis:
the last `capCount …` slices when the sign is positive, the first ones
otherwise. -/
def capSlices (g : Geometry) (depth : ℚ) : Finset ℤ :=
  let a := siAxis g.direction
  let n := g.size a
  let ds := capCount n (g.spacing a) depth
  if 0 < siDir g.direction then Finset.Icc ((n : ℤ) - ds) ((n : ℤ) - 1)
  else Finset.Icc 0 ((ds : ℤ) - 1)

/-!
## Voxel-wise image operations

Embeddings of the SimpleITK filters the scripts call.  Every operation
produces `0` outside the grid; binary outputs are `0`/`1` rationals like the
`sitkUInt8` masks of the scripts.
-/

/-- `sitk.BinaryThreshold(image, lower, upper, 1, 0)`: 1 where
`lower ≤ value ≤ upper`, 0 elsewhere. -/
def binaryThreshold (sz : Fin 3 → ℕ) (lower upper : ℚ) (v : Idx → ℚ) : Idx → ℚ :=
  fun p => if inB sz p ∧ lower ≤ v p ∧ v p ≤ upper then 1 else 0

/-- The ball structuring element of the given radius in every axis (the
default kernel of `sitk.BinaryMorphologicalClosing`): all integer offsets
inside the ellipsoid of that radius. -/
def ballSE (r : ℕ) : Finset Idx :=
  (Finset.Icc (-(r : ℤ)) r ×ˢ (Finset.Icc (-(r : ℤ)) r ×ˢ Finset.Icc (-(r : ℤ)) r)).filter
    (fun d => d.1 ^ 2 + d.2.1 ^ 2 + d.2.2 ^ 2 ≤ (r : ℤ) ^ 2)

/-- Binary dilation by `ballSE r`: a voxel becomes foreground when the
element, centred on it, hits a foreground voxel of the grid. -/
def dilate (sz : Fin 3 → ℕ) (r : ℕ) (v : Idx → ℚ) : Idx → ℚ :=
  fun p => if inB sz p ∧ ∃ d ∈ ballSE r, inB sz (p + d) ∧ v (p + d) ≠ 0 then 1 else 0

/-- Binary erosion by `ballSE r`: a voxel stays foreground when every
in-bounds voxel the centred element covers is foreground (outside the grid
the safe-border padding of the closing filter counts as foreground). -/
def erode (sz : Fin 3 → ℕ) (r : ℕ) (v : Idx → ℚ) : Idx → ℚ :=
  fun p => if inB sz p ∧ ∀ d ∈ ballSE r, inB sz (p + d) → v (p + d) ≠ 0 then 1 else 0

/-- `sitk.BinaryMorphologicalClosing` with the given radius in every axis:
dilation followed by erosion with the same element. -/
def closing (sz : Fin 3 → ℕ) (r : ℕ) (v : Idx → ℚ) : Idx → ℚ :=
  erode sz r (dilate sz r v)

/-!
## DifferenceComputer (`subtract_postop_from_preop`: `diff = preop - postop`)
-/

/-- Error kinds of the pipeline's grid-level operations. -/
inductive PipelineError where
  | geometryMismatch
deriving DecidableEq

/-- Voxel-wise subtraction of two volumes, as the SimpleITK subtraction
operator used by `subtract.py` behaves: it requires both operands to occupy
the very same grid (extents, spacing, origin, direction) and fails otherwise,
and on success produces the voxel-wise difference on the shared geometry. -/
def subtractVolumes (A B : Volume) : Except PipelineError Volume :=
  if A.geom = B.geom then .ok ⟨A.geom, fun p => A.vals p - B.vals p⟩
  else .error .geometryMismatch

/-- A 1×1×1 volume with unit spacing and identity direction, value 2. -/
def volA : Volume :=
  ⟨{ size := ![1, 1, 1], spacing := ![1, 1, 1], origin := ![0, 0, 0],
     direction := idDir }, fun _ => 2⟩

/-- A volume grid-incompatible with `volA` (different extents). -/
def volB : Volume :=
  ⟨{ size := ![2, 1, 1], spacing := ![1, 1, 1], origin := ![0, 0, 0],
     direction := idDir }, fun _ => 1⟩

/-!
## Connected components and size filtering

Embedding of the `sitk.ConnectedComponent` / `LabelShapeStatisticsImageFilter`
stage both scripts share: label the connected components of the foreground
(face adjacency, the default connectivity of `ConnectedComponent`), then OR
together those whose voxel count reaches the minimum, and normalize the
accumulated mask to 0/1 with the final `BinaryThreshold(…, 1, 255, 1, 0)`.
Components are computed by region growing iterated until it provably
stabilizes. -/

/-- Face adjacency of voxel indices. -/
def adjIdx (p q : Idx) : Prop :=
  |p.1 - q.1| + |p.2.1 - q.2.1| + |p.2.2 - q.2.2| = 1

instance (p q : Idx) : Decidable (adjIdx p q) := by
  unfold adjIdx; infer_instance

/-- The foreground voxels of a mask: in-bounds indices with nonzero value. -/
def fgSet (sz : Fin 3 → ℕ) (v : Idx → ℚ) : Finset Idx :=
  (allIdx sz).filter (fun p => v p ≠ 0)

/-- One region-growing step within the foreground `F`: add every foreground
voxel adjacent to the current region. -/
def grow (F : Finset Idx) (S : Finset Idx) : Finset Idx :=
  S ∪ F.filter (fun q => ∃ p ∈ S, adjIdx p q)

/-- The connected component of `p` within foreground `F`: region growing from
`{p}` iterated `F.card + 1` times, which reaches the fixed point. -/
def comp (F : Finset Idx) (p : Idx) : Finset Idx :=
  (grow F)^[F.card + 1] {p}

/-- The step relation of region growing: move to a foreground voxel adjacent
to the current one. -/
def stepRel (F : Finset Idx) (a b : Idx) : Prop := b ∈ F ∧ adjIdx a b

/-- The distinct component labels of `sitk.ConnectedComponent` followed by
`LabelShapeStatisticsImageFilter`: one finite voxel set per connected
component of the foreground (its `GetNumberOfPixels` is the set's
cardinality, and `cc == label` is the set's indicator). -/
def componentLabels (F : Finset Idx) : Finset (Finset Idx) :=
  F.image (comp F)

/-- The label loop of both scripts: start from an all-zero mask and OR in
every component whose voxel count is at least `m`. -/
def keepLarge (m : ℕ) (F : Finset Idx) : Finset Idx :=
  ((componentLabels F).filter (fun L => m ≤ L.card)).biUnion id

/-- The complete size-filtering stage: component labeling, dropping the
components below the minimum voxel count, OR-accumulation and the final 0/1
normalization. -/
def componentFilter (sz : Fin 3 → ℕ) (m : ℕ) (v : Idx → ℚ) : Idx → ℚ :=
  fun p => if p ∈ keepLarge m (fgSet sz v) then 1 else 0

/-!
## SkullMaskExtractor (`create_skull_mask` in `register.py`)
-/

/-- Configuration constant `BONE_LOWER_HU` of `register.py`. -/
def BONE_LOWER_HU : ℚ := 300

/-- Configuration constant `BONE_UPPER_HU` of `register.py`. -/
def BONE_UPPER_HU : ℚ := 3000

/-- Configuration constant `MASK_CLOSING_RADIUS` of `register.py`. -/
def MASK_CLOSING_RADIUS : ℕ := 1

/-- Configuration constant `MIN_SKULL_COMPONENT_SIZE` of `register.py`. -/
def MIN_SKULL_COMPONENT_SIZE : ℕ := 500

/-- `create_skull_mask` on the raw voxel data, parameterized over the
thresholds, closing radius and minimum component size the script holds in
module constants: threshold to 0/1, close when the radius is positive, then
filter connected components by size and OR the kept ones together. -/
def createSkullMask (sz : Fin 3 → ℕ) (lower upper : ℚ) (radius m : ℕ)
    (v : Idx → ℚ) : Idx → ℚ :=
  let mask := binaryThreshold sz lower upper v
  let mask2 := if 0 < radius then closing sz radius mask else mask
  componentFilter sz m mask2

/-- SkullMaskExtractor as a volume-level operation (the output mask carries
the input's geometry, as `CopyInformation` does). -/
def skullMaskExtract (lower upper : ℚ) (radius m : ℕ) (img : Volume) : Volume :=
  ⟨img.geom, createSkullMask img.geom.size lower upper radius m img.vals⟩

/-- `create_skull_mask` exactly as `register.py` instantiates it. -/
def createSkullMaskV (img : Volume) : Volume :=
  skullMaskExtract BONE_LOWER_HU BONE_UPPER_HU MASK_CLOSING_RADIUS
    MIN_SKULL_COMPONENT_SIZE img

/-- The thresholded-and-optionally-closed intermediate mask of
`create_skull_mask` (the input to its component filtering). -/
def skullStage2 (sz : Fin 3 → ℕ) (lower upper : ℚ) (radius : ℕ)
    (v : Idx → ℚ) : Idx → ℚ :=
  if 0 < radius then closing sz radius (binaryThreshold sz lower upper v)
  else binaryThreshold sz lower upper v

/-- A 1×1×1 volume whose single voxel holds 1: an already-binary mask. -/
def binVol1 : Volume :=
  ⟨{ size := ![1, 1, 1], spacing := ![1, 1, 1], origin := ![0, 0, 0],
     direction := idDir }, fun _ => 1⟩

/-- Number of foreground voxels of a mask. -/
def fgCount (sz : Fin 3 → ℕ) (v : Idx → ℚ) : ℕ := (fgSet sz v).card

/-!
## Otsu threshold selection (step 4 of `create_burrhole_mask`)

Modelled from the spec: the selection rule of `sitk.OtsuThreshold` is library
code, not part of the repository.  The spec describes it as follows: compute
the intensity histogram, for every candidate split value compute the
between-class variance of the two resulting voxel populations (values at or
below the split vs. values above it), and select the split maximizing it.
The embedding takes the attained intensity values as the candidate splits
(ties keep the earliest candidate).  `OtsuThreshold(image, 0, 1)` labels the
class ABOVE the selected split with the `outsideValue` 1. -/

/-- The population of values at or below the split. -/
def lowerPop (l : List ℚ) (t : ℚ) : List ℚ := l.filter (fun x => x ≤ t)

/-- The population of values above the split. -/
def upperPop (l : List ℚ) (t : ℚ) : List ℚ := l.filter (fun x => t < x)

/-- Mean of a list of values (`0` for the empty list, which carries weight 0). -/
def meanL (l : List ℚ) : ℚ := l.sum / l.length

/-- Between-class variance of the split at `t`: `w₀ · w₁ · (μ₀ − μ₁)²` with
the class weights `w` relative to the total count. -/
def betweenVar (l : List ℚ) (t : ℚ) : ℚ :=
  ((lowerPop l t).length * (upperPop l t).length : ℚ) / (l.length : ℚ) ^ 2 *
    (meanL (lowerPop l t) - meanL (upperPop l t)) ^ 2

/-- First maximizer of `f` over a candidate list (ties keep the earlier
candidate). -/
def argmaxBy (f : ℚ → ℚ) : List ℚ → Option ℚ
  | [] => none
  | x :: xs => some (xs.foldl (fun b c => if f b < f c then c else b) x)

/-- Modelled from the spec: the threshold-selection rule of
`sitk.OtsuThreshold` is library code missing from the repository sources; the
spec describes it as selecting the candidate split maximizing the
between-class variance.  The selected split here is the attained value
maximizing it (`0` for an empty volume). -/
def otsuThreshold (l : List ℚ) : ℚ :=
  (argmaxBy (betweenVar l) l.dedup).getD 0

/-- Sum of squared deviations of a list from a value. -/
def sse (l : List ℚ) (c : ℚ) : ℚ := (l.map (fun x => (x - c) ^ 2)).sum

/-- Sum of squares of a list. -/
def sqsum (l : List ℚ) : ℚ := (l.map (fun x => x ^ 2)).sum

/-- Total within-class sum of squared deviations of the split at `t`. -/
def wSSE (l : List ℚ) (t : ℚ) : ℚ :=
  sse (lowerPop l t) (meanL (lowerPop l t)) +
    sse (upperPop l t) (meanL (upperPop l t))

/-!
## CandidateSegmenter (`create_burrhole_mask` in `binarize.py`)
-/

/-- Configuration constant `BONE_THRESHOLD_HU` of `binarize.py`. -/
def BONE_THRESHOLD_HU : ℚ := 300

/-- Configuration constant `MIN_COMPONENT_SIZE` of `binarize.py`. -/
def MIN_COMPONENT_SIZE : ℕ := 50

/-- The upper bound `1e9` of the preop bone-mask threshold. -/
def HUGE_UPPER : ℚ := 1000000000

/-- All in-bounds indices as a list (the traversal order of the flattened
image buffer). -/
def idxList (sz : Fin 3 → ℕ) : List Idx :=
  ((List.range (sz 0)).map Int.ofNat).product
    ((((List.range (sz 1)).map Int.ofNat).product
      ((List.range (sz 2)).map Int.ofNat)))

/-- The in-bounds voxel values of a grid, flattened: the population the Otsu
step's histogram is built from. -/
def gridVals (sz : Fin 3 → ℕ) (v : Idx → ℚ) : List ℚ := (idxList sz).map v

/-- Step 1 of `create_burrhole_mask`: the preop bone mask
`BinaryThreshold(preop, 300, 1e9, 1, 0)`. -/
def bhBone (preop : Volume) : Idx → ℚ :=
  binaryThreshold preop.geom.size BONE_THRESHOLD_HU HUGE_UPPER preop.vals

/-- Steps 2–3: clamp the difference below at 0 (`sitk.Clamp(diff,
lowerBound=0.0)`), then multiply voxel-wise by the bone mask. -/
def bhDiffBone (preop diff : Volume) : Idx → ℚ :=
  fun p => max (diff.vals p) 0 * bhBone preop p

/-- The split selected by step 4: Otsu on the bone-restricted positive
difference. -/
def bhOtsu (preop diff : Volume) : ℚ :=
  otsuThreshold (gridVals preop.geom.size (bhDiffBone preop diff))

/-- Step 4's binarization: `OtsuThreshold(diff_bone, 0, 1)` labels the
voxels above the selected split with 1. -/
def bhCand (preop diff : Volume) : Idx → ℚ := fun p =>
  if inB preop.geom.size p ∧ bhOtsu preop diff < bhDiffBone preop diff p
  then 1 else 0

/-- Step 5a: `BinaryMorphologicalClosing(candidate_mask, [1, 1, 1])`. -/
def bhClosed (preop diff : Volume) : Idx → ℚ :=
  closing preop.geom.size 1 (bhCand preop diff)

/-- Step 5b: drop connected components below `MIN_COMPONENT_SIZE` and
normalize to 0/1. -/
def bhCleaned (preop diff : Volume) : Idx → ℚ :=
  componentFilter preop.geom.size MIN_COMPONENT_SIZE (bhClosed preop diff)

/-- `create_burrhole_mask`: the cleaned candidate mask intersected with the
head cap (`final_mask = cleaned_mask * head_cap_mask`), on the preop grid. -/
def createBurrholeMask (preop diff : Volume) : Volume :=
  ⟨preop.geom,
    fun p => bhCleaned preop diff p * headCap preop.geom HEAD_CAP_DEPTH_MM p⟩

/-!
## VolumeResampler (`sitk.ResampleImageFilter` as configured by the scripts)

Modelled from the spec: the resampler itself is library code.  Both scripts
configure it with `SetReferenceImage(fixed)`, the rigid transform, linear
interpolation and `SetDefaultPixelValue(0)`.  Each output voxel's physical
point is mapped through the transform into source space, converted to a
continuous index of the source grid, and the source is interpolated
trilinearly there; points outside the source grid receive the default
value. -/

/-- A rigid transform: rotation matrix plus translation, used as the map
sending an output-space physical point into source space. -/
structure RigidTransform where
  R : Mat3
  t : Vec3

/-- Apply a rigid transform to a physical point. -/
def applyT (T : RigidTransform) (x : Vec3) : Vec3 :=
  fun r => (∑ c : Fin 3, T.R r c * x c) + T.t r

/-- Physical point of a (continuous) index: `origin + D · (spacing · u)`. -/
def physPoint (g : Geometry) (u : Vec3) : Vec3 :=
  fun r => g.origin r + ∑ c : Fin 3, g.direction r c * (g.spacing c * u c)

/-- Continuous index of a physical point: `u = S⁻¹ · Dᵀ · (y − origin)`, the
inverse of `physPoint` when the direction matrix is orthonormal. -/
def contIndex (g : Geometry) (y : Vec3) : Vec3 :=
  fun c => (∑ r : Fin 3, g.direction r c * (y r - g.origin r)) / g.spacing c

/-- A voxel index as a rational vector. -/
def idxVec (p : Idx) : Vec3 := fun c => (coord p c : ℚ)

/-- The continuous index lies in the interpolatable region of the grid. -/
def insideGrid (g : Geometry) (u : Vec3) : Prop :=
  ∀ c : Fin 3, 0 ≤ u c ∧ u c ≤ (g.size c : ℚ) - 1

instance (g : Geometry) (u : Vec3) : Decidable (insideGrid g u) := by
  unfold insideGrid; infer_instance

/-- Trilinear interpolation of a volume at a continuous index: the weighted
average of the 2×2×2 surrounding voxel corners. -/
def trilinear (src : Volume) (u : Vec3) : ℚ :=
  ∑ s : Fin 3 → Bool,
    (∏ c : Fin 3, if s c then u c - ⌊u c⌋ else 1 - (u c - ⌊u c⌋)) *
      src.vals (⌊u 0⌋ + (if s 0 then 1 else 0),
        ⌊u 1⌋ + (if s 1 then 1 else 0),
        ⌊u 2⌋ + (if s 2 then 1 else 0))

/-- Modelled from the spec: the resampler itself (`sitk.ResampleImageFilter`)
is library code missing from the repository sources.  A new volume on the
reference grid; each output voxel samples the source at the transform image
of its physical point, and gets the default value when that point falls
outside the source grid. -/
def resample (src : Volume) (T : RigidTransform) (ref : Geometry)
    (dflt : ℚ) : Volume :=
  ⟨ref, fun p =>
    if insideGrid src.geom
        (contIndex src.geom (applyT T (physPoint ref (idxVec p))))
    then trilinear src (contIndex src.geom (applyT T (physPoint ref (idxVec p))))
    else dflt⟩

/-- `register_and_resample` and `subtract_postop_from_preop` resample the
postop volume onto the preop (fixed) grid with default value 0. -/
def resampleOntoPreop (postop : Volume) (T : RigidTransform)
    (preop : Volume) : Volume :=
  resample postop T preop.geom 0

/-- The identity rigid transform. -/
def idTransform : RigidTransform := ⟨idDir, fun _ => 0⟩

/-!
## Batch drivers (`main` of `binarize.py`, `register.py`, `subtract.py`)

Each driver walks the discovered case directories in order and, per case,
first checks whether that case's expected output files already exist: if they
all exist it hits `continue` (no computation runs for the case), otherwise it
runs the per-case computation, which writes only that case's output files.
The per-case computation is abstracted as a content function; the file
contents are an arbitrary type. -/

/-- A filesystem: optional content per (case directory, file name). -/
def FS (α : Type) : Type := String × String → Option α

/-- All of the case's expected output files exist. -/
def outputsExist {α : Type} (outs : List String) (fs : FS α) (c : String) :
    Prop :=
  ∀ f ∈ outs, (fs (c, f)).isSome = true

instance {α : Type} (outs : List String) (fs : FS α) (c : String) :
    Decidable (outputsExist outs fs c) := by
  unfold outputsExist; infer_instance

/-- Run one case: write that case's output files, touching nothing else. -/
def processCase {α : Type} (outs : List String) (runOut : String → String → α)
    (c : String) (fs : FS α) : FS α :=
  fun q => if q.1 = c ∧ q.2 ∈ outs then some (runOut q.1 q.2) else fs q

/-- The driver loop: skip a case whose outputs are present (`continue`),
otherwise process it; returns the final filesystem and the list of cases the
computation ran for. -/
def runBatch {α : Type} (outs : List String) (runOut : String → String → α) :
    List String → FS α → FS α × List String
  | [], fs => (fs, [])
  | c :: rest, fs =>
    if outputsExist outs fs c then runBatch outs runOut rest fs
    else
      let out := runBatch outs runOut rest (processCase outs runOut c fs)
      (out.1, c :: out.2)

/-- Output files of the `binarize.py` driver. -/
def binarizeOutputs : List String := ["burrhole_mask_autoannot.nii.gz"]

/-- Output files of the `register.py` driver (both must exist to skip). -/
def registerOutputs : List String :=
  ["postop_transformed.nii.gz", "postop_to_preop.tfm"]

/-- Output files of the `subtract.py` driver. -/
def subtractOutputs : List String := ["diff.nii.gz"]

/-- A concrete two-case filesystem where only case `a` already has the
`binarize.py` output. -/
def fsEx : FS ℕ := fun q =>
  if q = ("a", "burrhole_mask_autoannot.nii.gz") then some 0 else none

/-! ## Properties and claim theorems -/

theorem mem_allIdx (sz : Fin 3 → ℕ) (p : Idx) : p ∈ allIdx sz ↔ inB sz p := by
  constructor
  · rintro hp c
    simp only [allIdx, Finset.mem_product, Finset.mem_Icc] at hp
    fin_cases c
    · show (0 : ℤ) ≤ p.1 ∧ p.1 < (sz 0 : ℤ); omega
    · show (0 : ℤ) ≤ p.2.1 ∧ p.2.1 < (sz 1 : ℤ); omega
    · show (0 : ℤ) ≤ p.2.2 ∧ p.2.2 < (sz 2 : ℤ); omega
  · intro hp
    have h0 := hp 0; have h1 := hp 1; have h2 := hp 2
    simp only [coord] at h0 h1 h2
    simp only [allIdx, Finset.mem_product, Finset.mem_Icc]
    refine ⟨⟨h0.1, by omega⟩, ⟨h1.1, by omega⟩, ⟨h2.1, by omega⟩⟩

theorem inB_iff (sz : Fin 3 → ℕ) (p : Idx) :
    inB sz p ↔ (0 ≤ p.1 ∧ p.1 < (sz 0 : ℤ)) ∧ (0 ≤ p.2.1 ∧ p.2.1 < (sz 1 : ℤ)) ∧
      (0 ≤ p.2.2 ∧ p.2.2 < (sz 2 : ℤ)) := by
  constructor
  · intro h; exact ⟨h 0, h 1, h 2⟩
  · rintro ⟨h0, h1, h2⟩ c
    fin_cases c
    · exact h0
    · exact h1
    · exact h2

/-- Claim C1: on the identity direction matrix the code selects voxel axis 2
with positive sign, as the claim states; but on the orthonormal direction
matrix `permDir` the code selects voxel axis 1 whereas the axis whose
direction-matrix column has the largest absolute third component is axis 0 —
the code reads rows of the row-major `GetDirection()` tuple where its own
comment says it wants the per-axis direction vectors (the columns). -/
theorem claim_C1_axis_bug :
    siAxis idDir = 2 ∧ 0 < siDir idDir ∧
    orthonormalDir permDir ∧
    siAxis permDir = 1 ∧ siAxisClaim permDir = 0 := by
  have hid : siAxis idDir = 2 := by norm_num [siAxis, idDir]
  refine ⟨hid, ?_, ⟨?_, ?_⟩, ?_, ?_⟩
  · rw [siDir, hid]; norm_num [idDir]
  · intro c c'
    fin_cases c <;> fin_cases c' <;>
      simp [permDir, Fin.sum_univ_three, Matrix.vecHead, Matrix.vecTail]
  · intro r r'
    fin_cases r <;> fin_cases r' <;>
      simp [permDir, Fin.sum_univ_three, Matrix.vecHead, Matrix.vecTail]
  · norm_num [siAxis, permDir, Matrix.vecHead, Matrix.vecTail]
  · norm_num [siAxisClaim, permDir, Matrix.vecHead, Matrix.vecTail]

/-- Claim C3, counterexample: with 0.6 mm spacing and 100 mm depth the code
keeps `int(166.66…) = 166` top slices (slices 34–199), not the claimed
`round(166.66…) = 167` (slices 33–199): at voxel `(0,0,33)` the code's mask is
0 but the mask described by the claim is 1. -/
theorem claim_C3_counterexample :
    headCap capG0 HEAD_CAP_DEPTH_MM (0, 0, 33) = 0 ∧
    headCapClaim capG0 HEAD_CAP_DEPTH_MM (0, 0, 33) = 1 := by
  have ha : siAxis capG0.direction = 2 := by
    norm_num [siAxis, capG0, idDir]
  have hdir : siDir capG0.direction = 1 := by
    rw [siDir, ha]; norm_num [capG0, idDir]
  have hfl : ⌊HEAD_CAP_DEPTH_MM / capG0.spacing 2⌋ = 166 := by
    rw [Int.floor_eq_iff]
    norm_num [capG0, HEAD_CAP_DEPTH_MM, Matrix.vecHead, Matrix.vecTail]
  have hrd : round (HEAD_CAP_DEPTH_MM / capG0.spacing 2) = 167 := by
    rw [round_eq, Int.floor_eq_iff]
    norm_num [capG0, HEAD_CAP_DEPTH_MM, Matrix.vecHead, Matrix.vecTail]
  have hc : capCount (capG0.size 2) (capG0.spacing 2) HEAD_CAP_DEPTH_MM = 166 := by
    simp only [capCount, hfl]
    norm_num [capG0]
    omega
  have hc' : capCountClaim (capG0.size 2) (capG0.spacing 2) HEAD_CAP_DEPTH_MM = 167 := by
    simp only [capCountClaim, hrd]
    norm_num [capG0]
    omega
  constructor
  · rw [headCap]
    simp only [ha, hdir, hc]
    norm_num [capG0, coord, inB_iff]
  · rw [headCapClaim]
    simp only [ha, hdir, hc']
    norm_num [capG0, coord, inB_iff]

theorem capCount_le (n : ℕ) (s d : ℚ) : capCount n s d ≤ n := by
  simp only [capCount]
  split_ifs <;> omega

/-- Claim C3, amended (the code truncates `depth / spacing` instead of
rounding it): the head-cap mask is 1 exactly on a contiguous slab of
`⌊depth/spacing⌋` slices — clamped to at least 1 and at most the axis
extent — along the chosen superior–inferior axis, placed at the last slices
when the sign is positive and at the first slices otherwise, and 0 on every
other voxel. -/
theorem claim_C3_amended (g : Geometry) (depth : ℚ) :
    (∀ p : Idx,
      headCap g depth p =
        if inB g.size p ∧ coord p (siAxis g.direction) ∈ capSlices g depth
        then 1 else 0) ∧
    (capSlices g depth).card
      = capCount (g.size (siAxis g.direction))
          (g.spacing (siAxis g.direction)) depth ∧
    capCount (g.size (siAxis g.direction)) (g.spacing (siAxis g.direction)) depth
      = min (g.size (siAxis g.direction))
          (max 1 (⌊depth / g.spacing (siAxis g.direction)⌋.toNat)) := by
  set a := siAxis g.direction with ha
  set n := g.size a with hn
  set ds := capCount n (g.spacing a) depth with hds
  have hdsn : ds ≤ n := capCount_le n (g.spacing a) depth
  refine ⟨?_, ?_, ?_⟩
  · intro p
    rw [headCap, capSlices]
    by_cases hsgn : 0 < siDir g.direction
    · simp only [← ha, ← hn, ← hds, if_pos hsgn, Finset.mem_Icc]
      have : max 0 ((n : ℤ) - ds) = (n : ℤ) - ds := by omega
      rw [this]
    · simp only [← ha, ← hn, ← hds, if_neg hsgn, Finset.mem_Icc]
      have : min ((ds : ℤ) - 1) ((n : ℤ) - 1) = (ds : ℤ) - 1 := by omega
      rw [this]
  · rw [capSlices]
    by_cases hsgn : 0 < siDir g.direction
    · simp only [← ha, ← hn, ← hds, if_pos hsgn]
      rw [Int.card_Icc]
      omega
    · simp only [← ha, ← hn, ← hds, if_neg hsgn]
      rw [Int.card_Icc]
      omega
  · rw [hds]
    simp only [capCount]
    split_ifs <;> omega

/-- Claim C5: subtracting two volumes that are not grid-compatible fails with
the geometry-mismatch error (the compatibility check is an explicit guard of
the subtraction operation), and on grid-compatible volumes it produces the
voxel-wise difference `A - B` carrying the shared geometry. -/
theorem claim_C5 (A B : Volume) :
    (A.geom ≠ B.geom → subtractVolumes A B = .error .geometryMismatch) ∧
    (A.geom = B.geom →
      ∃ C, subtractVolumes A B = .ok C ∧ C.geom = A.geom ∧
        ∀ p, C.vals p = A.vals p - B.vals p) := by
  constructor
  · intro h; rw [subtractVolumes, if_neg h]
  · intro h
    exact ⟨⟨A.geom, fun p => A.vals p - B.vals p⟩,
      by rw [subtractVolumes, if_pos h], rfl, fun p => rfl⟩

theorem claim_C5_witness :
    subtractVolumes volA volB = .error .geometryMismatch ∧
    ∃ C, subtractVolumes volA volA = .ok C ∧ C.geom = volA.geom ∧
      ∀ p, C.vals p = volA.vals p - volA.vals p := by
  refine ⟨(claim_C5 volA volB).1 ?_, (claim_C5 volA volA).2 rfl⟩
  intro h
  have h0 := congrArg (fun g => g.size 0) h
  simp [volA, volB] at h0

theorem adjIdx_symm {p q : Idx} (h : adjIdx p q) : adjIdx q p := by
  rw [adjIdx, abs_sub_comm q.1, abs_sub_comm q.2.1, abs_sub_comm q.2.2]
  exact h

theorem subset_grow (F S : Finset Idx) : S ⊆ grow F S :=
  Finset.subset_union_left

theorem iter_grow_subset (F S : Finset Idx) (n : ℕ) : (grow F)^[n] S ⊆ S ∪ F := by
  induction n with
  | zero => simp
  | succ n ih =>
    rw [Function.iterate_succ_apply']
    intro x hx
    rw [grow, Finset.mem_union] at hx
    rcases hx with hx | hx
    · exact ih hx
    · exact Finset.mem_union_right _ (Finset.mem_of_mem_filter x hx)

theorem iter_grow_succ_subset (F S : Finset Idx) (n : ℕ) :
    (grow F)^[n] S ⊆ (grow F)^[n + 1] S := by
  rw [Function.iterate_succ_apply']
  exact subset_grow _ _

theorem singleton_subset_iter_grow (F : Finset Idx) (p : Idx) (n : ℕ) :
    ({p} : Finset Idx) ⊆ (grow F)^[n] {p} := by
  induction n with
  | zero => simp
  | succ n ih => exact ih.trans (iter_grow_succ_subset F {p} n)

theorem mem_comp_self (F : Finset Idx) (p : Idx) : p ∈ comp F p :=
  singleton_subset_iter_grow F p (F.card + 1) (Finset.mem_singleton_self p)

theorem comp_subset (F : Finset Idx) (p : Idx) : comp F p ⊆ insert p F := by
  rw [Finset.insert_eq]
  exact iter_grow_subset F {p} (F.card + 1)

theorem grow_fix_iterate (F : Finset Idx) {S : Finset Idx} (h : grow F S = S)
    (n : ℕ) : (grow F)^[n] S = S := by
  induction n with
  | zero => rfl
  | succ n ih => rw [Function.iterate_succ_apply', ih, h]

theorem card_le_iter_grow (F : Finset Idx) (p : Idx) (m : ℕ)
    (h : ∀ k < m, (grow F)^[k + 1] {p} ≠ (grow F)^[k] {p}) :
    m + 1 ≤ ((grow F)^[m] {p}).card := by
  induction m with
  | zero => simp
  | succ m ih =>
    have h1 : m + 1 ≤ ((grow F)^[m] {p}).card :=
      ih (fun k hk => h k (Nat.lt_succ_of_lt hk))
    have h2 : (grow F)^[m] {p} ⊂ (grow F)^[m + 1] {p} :=
      HasSubset.Subset.ssubset_of_ne (iter_grow_succ_subset F {p} m)
        (Ne.symm (h m (Nat.lt_succ_self m)))
    have := Finset.card_lt_card h2
    omega

theorem comp_fixed (F : Finset Idx) (p : Idx) : grow F (comp F p) = comp F p := by
  by_cases hall : ∃ k ≤ F.card, grow F ((grow F)^[k] {p}) = (grow F)^[k] {p}
  · obtain ⟨k, hk, hfix⟩ := hall
    have hstable : (grow F)^[F.card + 1] {p} = (grow F)^[k] {p} := by
      have hsplit : F.card + 1 = (F.card + 1 - k) + k := by omega
      rw [hsplit, Function.iterate_add_apply, grow_fix_iterate F hfix]
    rw [comp, hstable, hfix]
  · push_neg at hall
    exfalso
    have hbig : F.card + 1 + 1 ≤ ((grow F)^[F.card + 1] {p}).card := by
      apply card_le_iter_grow
      intro k hk
      rw [Function.iterate_succ_apply']
      exact hall k (by omega)
    have hsub := Finset.card_le_card (iter_grow_subset F {p} (F.card + 1))
    have hcard := Finset.card_union_le ({p} : Finset Idx) F
    simp only [Finset.card_singleton] at hcard
    omega

theorem mem_iter_grow_rtg (F : Finset Idx) (p : Idx) (n : ℕ) :
    ∀ q ∈ (grow F)^[n] {p}, Relation.ReflTransGen (stepRel F) p q := by
  induction n with
  | zero =>
    intro q hq
    rw [Function.iterate_zero_apply, Finset.mem_singleton] at hq
    subst hq
    exact Relation.ReflTransGen.refl
  | succ n ih =>
    intro q hq
    rw [Function.iterate_succ_apply', grow, Finset.mem_union] at hq
    rcases hq with hq | hq
    · exact ih q hq
    · rw [Finset.mem_filter] at hq
      obtain ⟨hqF, a, ha, hadj⟩ := hq
      exact Relation.ReflTransGen.tail (ih a ha) ⟨hqF, hadj⟩

theorem rtg_mem_comp (F : Finset Idx) (p q : Idx)
    (h : Relation.ReflTransGen (stepRel F) p q) : q ∈ comp F p := by
  induction h with
  | refl => exact mem_comp_self F p
  | tail hab hbc ih =>
    rw [← comp_fixed F p, grow, Finset.mem_union]
    right
    rw [Finset.mem_filter]
    exact ⟨hbc.1, ⟨_, ih, hbc.2⟩⟩

theorem rtg_target_mem (F : Finset Idx) {p q : Idx} (hp : p ∈ F)
    (h : Relation.ReflTransGen (stepRel F) p q) : q ∈ F := by
  induction h with
  | refl => exact hp
  | tail _ hbc _ => exact hbc.1

theorem rtg_symm (F : Finset Idx) {p q : Idx} (hp : p ∈ F)
    (h : Relation.ReflTransGen (stepRel F) p q) :
    Relation.ReflTransGen (stepRel F) q p := by
  induction h with
  | refl => exact Relation.ReflTransGen.refl
  | tail hab hbc ih =>
    exact Relation.ReflTransGen.head ⟨rtg_target_mem F hp hab, adjIdx_symm hbc.2⟩ ih

theorem comp_eq_of_mem (F : Finset Idx) {p q : Idx} (hp : p ∈ F)
    (hq : q ∈ comp F p) : comp F q = comp F p := by
  have hpq := mem_iter_grow_rtg F p (F.card + 1) q hq
  have hqp := rtg_symm F hp hpq
  ext x
  constructor
  · intro hx
    exact rtg_mem_comp F p x (hpq.trans (mem_iter_grow_rtg F q (F.card + 1) x hx))
  · intro hx
    exact rtg_mem_comp F q x (hqp.trans (mem_iter_grow_rtg F p (F.card + 1) x hx))

theorem mem_keepLarge (m : ℕ) (F : Finset Idx) (x : Idx) :
    x ∈ keepLarge m F ↔ x ∈ F ∧ m ≤ (comp F x).card := by
  rw [keepLarge]
  simp only [Finset.mem_biUnion, Finset.mem_filter, componentLabels,
    Finset.mem_image, id]
  constructor
  · rintro ⟨L, ⟨⟨q, hqF, rfl⟩, hm⟩, hx⟩
    have hceq : comp F x = comp F q := comp_eq_of_mem F hqF hx
    have hxF : x ∈ F := by
      have hins := comp_subset F q hx
      rw [Finset.mem_insert] at hins
      rcases hins with rfl | h
      · exact hqF
      · exact h
    exact ⟨hxF, by rw [hceq]; exact hm⟩
  · rintro ⟨hxF, hm⟩
    exact ⟨comp F x, ⟨⟨x, hxF, rfl⟩, hm⟩, mem_comp_self F x⟩

theorem componentFilter_eq_one (sz : Fin 3 → ℕ) (m : ℕ) (v : Idx → ℚ) (p : Idx) :
    componentFilter sz m v p = 1 ↔
      inB sz p ∧ v p ≠ 0 ∧ m ≤ (comp (fgSet sz v) p).card := by
  rw [componentFilter]
  by_cases h : p ∈ keepLarge m (fgSet sz v)
  · rw [if_pos h]
    rw [mem_keepLarge] at h
    simp only [fgSet, Finset.mem_filter, mem_allIdx] at h
    exact iff_of_true rfl ⟨h.1.1, h.1.2, h.2⟩
  · rw [if_neg h]
    rw [mem_keepLarge] at h
    constructor
    · intro h01; exact absurd h01 zero_ne_one
    · rintro ⟨hin, hv, hm⟩
      exact absurd ⟨Finset.mem_filter.mpr ⟨(mem_allIdx _ _).mpr hin, hv⟩, hm⟩ h

theorem componentFilter_vals (sz : Fin 3 → ℕ) (m : ℕ) (v : Idx → ℚ) (p : Idx) :
    componentFilter sz m v p = 0 ∨ componentFilter sz m v p = 1 := by
  rw [componentFilter]
  split_ifs
  · exact Or.inr rfl
  · exact Or.inl rfl

theorem binaryThreshold_vals (sz : Fin 3 → ℕ) (lower upper : ℚ) (v : Idx → ℚ)
    (p : Idx) : binaryThreshold sz lower upper v p = 0 ∨
      binaryThreshold sz lower upper v p = 1 := by
  rw [binaryThreshold]
  split_ifs
  · exact Or.inr rfl
  · exact Or.inl rfl

theorem erode_vals (sz : Fin 3 → ℕ) (r : ℕ) (v : Idx → ℚ) (p : Idx) :
    erode sz r v p = 0 ∨ erode sz r v p = 1 := by
  rw [erode]
  split_ifs
  · exact Or.inr rfl
  · exact Or.inl rfl

theorem closing_vals (sz : Fin 3 → ℕ) (r : ℕ) (v : Idx → ℚ) (p : Idx) :
    closing sz r v p = 0 ∨ closing sz r v p = 1 :=
  erode_vals sz r (dilate sz r v) p

theorem zero_one_ne_iff {x : ℚ} (h : x = 0 ∨ x = 1) : x ≠ 0 ↔ x = 1 := by
  rcases h with rfl | rfl <;> simp

theorem skullStage2_vals (sz : Fin 3 → ℕ) (lower upper : ℚ) (radius : ℕ)
    (v : Idx → ℚ) (p : Idx) : skullStage2 sz lower upper radius v p = 0 ∨
      skullStage2 sz lower upper radius v p = 1 := by
  rw [skullStage2]
  split_ifs
  · exact closing_vals _ _ _ _
  · exact binaryThreshold_vals _ _ _ _ _

/-- Claim C6: for every input volume, thresholds, closing radius and minimum
component size, `create_skull_mask` keeps the input geometry; binarizes each
voxel to 1 exactly when its intensity lies in `[lower, upper]`; applies the
morphological closing only when the radius is positive; and its result is 1
exactly on the in-bounds voxels of the intermediate mask whose connected
component has at least the minimum voxel count (the kept components OR-ed
into one 0/1 mask). -/
theorem claim_C6 (img : Volume) (lower upper : ℚ) (radius m : ℕ) :
    (skullMaskExtract lower upper radius m img).geom = img.geom ∧
    (∀ p, binaryThreshold img.geom.size lower upper img.vals p = 1 ↔
      inB img.geom.size p ∧ lower ≤ img.vals p ∧ img.vals p ≤ upper) ∧
    (skullMaskExtract lower upper radius m img).vals =
      componentFilter img.geom.size m
        (skullStage2 img.geom.size lower upper radius img.vals) ∧
    (∀ p, (skullMaskExtract lower upper radius m img).vals p = 1 ↔
      inB img.geom.size p ∧
      skullStage2 img.geom.size lower upper radius img.vals p = 1 ∧
      m ≤ (comp (fgSet img.geom.size
            (skullStage2 img.geom.size lower upper radius img.vals)) p).card) ∧
    (∀ p, (skullMaskExtract lower upper radius m img).vals p = 0 ∨
      (skullMaskExtract lower upper radius m img).vals p = 1) := by
  have hvals : (skullMaskExtract lower upper radius m img).vals =
      componentFilter img.geom.size m
        (skullStage2 img.geom.size lower upper radius img.vals) := rfl
  refine ⟨rfl, ?_, hvals, ?_, ?_⟩
  · intro p
    rw [binaryThreshold]
    split_ifs with h
    · exact iff_of_true rfl h
    · exact iff_of_false one_ne_zero.symm h
  · intro p
    rw [hvals, componentFilter_eq_one,
      zero_one_ne_iff (skullStage2_vals _ _ _ _ _ _)]
  · intro p
    rw [hvals]
    exact componentFilter_vals _ _ _ _

/-- Claim C4, counterexample: a 1×1×1 all-ones volume is already a `{0,1}`
mask, yet `create_skull_mask` with threshold bounds `[1,1]` and closing
disabled erases its single foreground voxel, because the function always
applies its minimum-component-size filter (500 in `register.py`) and a
one-voxel component is below the minimum — so the output differs from the
input. -/
theorem claim_C4_counterexample :
    (∀ p, binVol1.vals p = 0 ∨ binVol1.vals p = 1) ∧
    createSkullMask binVol1.geom.size 1 1 0 MIN_SKULL_COMPONENT_SIZE
      binVol1.vals (0, 0, 0) = 0 ∧
    binVol1.vals (0, 0, 0) = 1 := by
  refine ⟨fun _ => Or.inr rfl, ?_, rfl⟩
  have hcard : (allIdx binVol1.geom.size).card = 1 := by
    have h0 : binVol1.geom.size 0 = 1 := rfl
    have h1 : binVol1.geom.size 1 = 1 := rfl
    have h2 : binVol1.geom.size 2 = 1 := rfl
    rw [allIdx, Finset.card_product, Finset.card_product, h0, h1, h2,
      Int.card_Icc]
    norm_num
  have hstep : createSkullMask binVol1.geom.size 1 1 0 MIN_SKULL_COMPONENT_SIZE
      binVol1.vals = componentFilter binVol1.geom.size MIN_SKULL_COMPONENT_SIZE
        (binaryThreshold binVol1.geom.size 1 1 binVol1.vals) := rfl
  rw [hstep, componentFilter, if_neg]
  intro hmem
  rw [mem_keepLarge] at hmem
  have hsub : comp (fgSet binVol1.geom.size
      (binaryThreshold binVol1.geom.size 1 1 binVol1.vals)) (0, 0, 0) ⊆
      insert (0, 0, 0) (allIdx binVol1.geom.size) :=
    (comp_subset _ _).trans
      (Finset.insert_subset_insert _ (Finset.filter_subset _ _))
  have hle := Finset.card_le_card hsub
  have hins := Finset.card_insert_le ((0, 0, 0) : Idx) (allIdx binVol1.geom.size)
  have hm : MIN_SKULL_COMPONENT_SIZE = 500 := rfl
  rw [hm] at hmem
  omega

/-- Claim C4, amended: `create_skull_mask` on an already-binary `{0,1}`
volume with threshold bounds `[1,1]` and closing disabled returns the input
mask unchanged PROVIDED every in-bounds foreground voxel lies in a connected
component of at least the minimum component size (the function
unconditionally applies its component-size filter, which otherwise deletes
the small components). -/
theorem claim_C4_amended (img : Volume) (m : ℕ)
    (hb : ∀ p, img.vals p = 0 ∨ img.vals p = 1)
    (hc : ∀ p, inB img.geom.size p → img.vals p = 1 →
      m ≤ (comp (fgSet img.geom.size img.vals) p).card) :
    (skullMaskExtract 1 1 0 m img).geom = img.geom ∧
    ∀ p, inB img.geom.size p →
      (skullMaskExtract 1 1 0 m img).vals p = img.vals p := by
  have hbteq : ∀ p, inB img.geom.size p →
      binaryThreshold img.geom.size 1 1 img.vals p = img.vals p := by
    intro p hp
    rcases hb p with h0 | h1
    · rw [binaryThreshold, if_neg, h0]
      rw [h0]
      intro hcontra
      exact absurd hcontra.2.1 (by norm_num)
    · rw [binaryThreshold, if_pos ⟨hp, by rw [h1], by rw [h1]⟩, h1]
  have hfg : fgSet img.geom.size
      (binaryThreshold img.geom.size 1 1 img.vals) =
      fgSet img.geom.size img.vals := by
    rw [fgSet, fgSet]
    apply Finset.filter_congr
    intro q hq
    rw [hbteq q ((mem_allIdx _ _).mp hq)]
  have hstep : (skullMaskExtract 1 1 0 m img).vals =
      componentFilter img.geom.size m
        (binaryThreshold img.geom.size 1 1 img.vals) := rfl
  refine ⟨rfl, ?_⟩
  intro p hp
  rw [hstep]
  rcases hb p with h0 | h1
  · rw [componentFilter, if_neg, h0]
    intro hmem
    rw [mem_keepLarge, fgSet, Finset.mem_filter] at hmem
    exact hmem.1.2 (by rw [hbteq p hp, h0])
  · rw [componentFilter, if_pos, h1]
    rw [mem_keepLarge, hfg]
    refine ⟨?_, hc p hp h1⟩
    rw [fgSet, Finset.mem_filter]
    exact ⟨(mem_allIdx _ _).mpr hp, by rw [h1]; exact one_ne_zero⟩

theorem claim_C4_witness :
    (∀ p, binVol1.vals p = 0 ∨ binVol1.vals p = 1) ∧
    (skullMaskExtract 1 1 0 1 binVol1).geom = binVol1.geom ∧
    ∀ p, inB binVol1.geom.size p →
      (skullMaskExtract 1 1 0 1 binVol1).vals p = binVol1.vals p := by
  have h := claim_C4_amended binVol1 1 (fun _ => Or.inr rfl)
    (fun p _ _ => Finset.card_pos.mpr ⟨p, mem_comp_self _ p⟩)
  exact ⟨fun _ => Or.inr rfl, h.1, h.2⟩

/-- Claim C7: for a fixed input mask, raising the minimum-component-size
parameter of the component-filtering stage shared by `create_skull_mask` and
`create_burrhole_mask` can only shrink the set of foreground voxels of its
output. -/
theorem claim_C7 (sz : Fin 3 → ℕ) (v : Idx → ℚ) (m1 m2 : ℕ) (h : m1 ≤ m2) :
    fgCount sz (componentFilter sz m2 v) ≤ fgCount sz (componentFilter sz m1 v) := by
  apply Finset.card_le_card
  intro p hp
  rw [fgSet, Finset.mem_filter] at hp ⊢
  refine ⟨hp.1, ?_⟩
  have h2 : componentFilter sz m2 v p = 1 := by
    rcases componentFilter_vals sz m2 v p with h0 | h1
    · exact absurd h0 hp.2
    · exact h1
  rw [componentFilter_eq_one] at h2
  have h1 : componentFilter sz m1 v p = 1 := by
    rw [componentFilter_eq_one]
    exact ⟨h2.1, h2.2.1, le_trans h h2.2.2⟩
  rw [h1]
  exact one_ne_zero

theorem claim_C7_witness :
    (0 : ℕ) ≤ 1 ∧
    fgCount binVol1.geom.size (componentFilter binVol1.geom.size 1 binVol1.vals) ≤
      fgCount binVol1.geom.size (componentFilter binVol1.geom.size 0 binVol1.vals) :=
  ⟨Nat.zero_le 1, claim_C7 binVol1.geom.size binVol1.vals 0 1 (Nat.zero_le 1)⟩

theorem argmax_fold_mem (f : ℚ → ℚ) (xs : List ℚ) :
    ∀ b, xs.foldl (fun b c => if f b < f c then c else b) b = b ∨
      xs.foldl (fun b c => if f b < f c then c else b) b ∈ xs := by
  induction xs with
  | nil => intro b; exact Or.inl rfl
  | cons c xs ih =>
    intro b
    rw [List.foldl_cons]
    rcases ih (if f b < f c then c else b) with h | h
    · rw [h]
      split_ifs with hc
      · exact Or.inr (List.mem_cons_self c xs)
      · exact Or.inl rfl
    · exact Or.inr (List.mem_cons_of_mem c h)

theorem argmax_fold_ge (f : ℚ → ℚ) (xs : List ℚ) :
    ∀ b, f b ≤ f (xs.foldl (fun b c => if f b < f c then c else b) b) ∧
      ∀ c ∈ xs, f c ≤ f (xs.foldl (fun b c => if f b < f c then c else b) b) := by
  induction xs with
  | nil => intro b; exact ⟨le_refl _, fun c hc => absurd hc (List.not_mem_nil c)⟩
  | cons c xs ih =>
    intro b
    rw [List.foldl_cons]
    obtain ⟨hb, hxs⟩ := ih (if f b < f c then c else b)
    have hbb : f b ≤ f (if f b < f c then c else b) := by
      split_ifs with hc
      · exact le_of_lt hc
      · exact le_refl _
    have hcb : f c ≤ f (if f b < f c then c else b) := by
      split_ifs with hc
      · exact le_refl _
      · exact le_of_not_lt hc
    refine ⟨le_trans hbb hb, ?_⟩
    intro d hd
    rcases List.mem_cons.mp hd with rfl | hd
    · exact le_trans hcb hb
    · exact hxs d hd

theorem argmaxBy_spec (f : ℚ → ℚ) (l : List ℚ) (hl : l ≠ []) :
    ∃ r, argmaxBy f l = some r ∧ r ∈ l ∧ ∀ c ∈ l, f c ≤ f r := by
  cases l with
  | nil => exact absurd rfl hl
  | cons x xs =>
    refine ⟨xs.foldl (fun b c => if f b < f c then c else b) x, rfl, ?_, ?_⟩
    · rcases argmax_fold_mem f xs x with h | h
      · rw [h]; exact List.mem_cons_self x xs
      · exact List.mem_cons_of_mem x h
    · intro c hc
      obtain ⟨hb, hxs⟩ := argmax_fold_ge f xs x
      rcases List.mem_cons.mp hc with rfl | hd
      · exact hb
      · exact hxs c hd

/-- Sum of the images of the two split populations equals the sum over the
whole list: the split is a partition. -/
theorem pop_split_map_sum (g : ℚ → ℚ) (l : List ℚ) (t : ℚ) :
    ((lowerPop l t).map g).sum + ((upperPop l t).map g).sum = (l.map g).sum := by
  rw [lowerPop, upperPop]
  induction l with
  | nil => simp
  | cons x l ih =>
    rw [List.filter_cons, List.filter_cons]
    by_cases hx : x ≤ t
    · simp only [hx, not_lt.mpr hx, decide_True, decide_False,
        Bool.false_eq_true, if_true, if_false, List.map_cons, List.sum_cons]
      linarith [ih]
    · simp only [hx, lt_of_not_le hx, decide_True, decide_False,
        Bool.false_eq_true, if_true, if_false, List.map_cons, List.sum_cons]
      linarith [ih]

theorem pop_split_length (l : List ℚ) (t : ℚ) :
    (lowerPop l t).length + (upperPop l t).length = l.length := by
  rw [lowerPop, upperPop]
  induction l with
  | nil => simp
  | cons x l ih =>
    rw [List.filter_cons, List.filter_cons]
    by_cases hx : x ≤ t
    · simp only [hx, not_lt.mpr hx, decide_True, decide_False,
        Bool.false_eq_true, if_true, if_false, List.length_cons]
      omega
    · simp only [hx, lt_of_not_le hx, decide_True, decide_False,
        Bool.false_eq_true, if_true, if_false, List.length_cons]
      omega

theorem sse_nonneg (l : List ℚ) (c : ℚ) : 0 ≤ sse l c := by
  apply List.sum_nonneg
  intro y hy
  obtain ⟨x, _, rfl⟩ := List.mem_map.mp hy
  exact sq_nonneg _

theorem sse_poly (l : List ℚ) (c : ℚ) :
    sse l c = sqsum l - 2 * c * l.sum + l.length * c ^ 2 := by
  induction l with
  | nil => simp [sse, sqsum]
  | cons x l ih =>
    rw [sse, List.map_cons, List.sum_cons] at *
    rw [sqsum, List.map_cons, List.sum_cons, List.length_cons, List.sum_cons]
    rw [sqsum] at ih
    push_cast
    rw [ih]
    ring

theorem sse_shift (l : List ℚ) (hl : l ≠ []) (c : ℚ) :
    sse l c = sse l (meanL l) + l.length * (c - meanL l) ^ 2 := by
  have hn : (l.length : ℚ) ≠ 0 := by
    simp only [ne_eq, Nat.cast_eq_zero, List.length_eq_zero]
    exact hl
  rw [sse_poly, sse_poly, meanL]
  field_simp
  ring

theorem sse_mean_le (l : List ℚ) (c : ℚ) : sse l (meanL l) ≤ sse l c := by
  rcases eq_or_ne l [] with rfl | hl
  · exact le_refl _
  · rw [sse_shift l hl c]
    have h1 : 0 ≤ (l.length : ℚ) * (c - meanL l) ^ 2 :=
      mul_nonneg (Nat.cast_nonneg _) (sq_nonneg _)
    linarith

theorem sse_le_of_bounds (l : List ℚ) (a b : ℚ) (h : ∀ x ∈ l, a ≤ x ∧ x ≤ b) :
    sse l ((a + b) / 2) ≤ l.length * ((b - a) / 2) ^ 2 := by
  induction l with
  | nil => simp [sse]
  | cons x l ih =>
    rw [sse, List.map_cons, List.sum_cons, List.length_cons]
    obtain ⟨hax, hxb⟩ := h x (List.mem_cons_self x l)
    have hterm : (x - (a + b) / 2) ^ 2 ≤ ((b - a) / 2) ^ 2 := by
      apply sq_le_sq'
      · linarith
      · linarith
    have hrest : sse l ((a + b) / 2) ≤ l.length * ((b - a) / 2) ^ 2 :=
      ih (fun y hy => h y (List.mem_cons_of_mem x hy))
    rw [sse] at hrest
    push_cast
    linarith

theorem sse_mixed_lower (l : List ℚ) (b1 a2 : ℚ) (hgap : b1 ≤ a2)
    (x0 : ℚ) (hx0 : x0 ∈ l) (hx0b : x0 ≤ b1)
    (y0 : ℚ) (hy0 : y0 ∈ l) (hy0b : a2 ≤ y0) (c : ℚ) :
    ((a2 - b1) / 2) ^ 2 ≤ sse l c := by
  have hnn : ∀ y ∈ l.map (fun x => (x - c) ^ 2), 0 ≤ y := by
    intro y hy
    obtain ⟨x, _, rfl⟩ := List.mem_map.mp hy
    exact sq_nonneg _
  have hA : 0 ≤ (a2 - b1) / 2 := by linarith
  by_cases hc : (b1 + a2) / 2 ≤ c
  · have h1 : (a2 - b1) / 2 ≤ c - x0 := by linarith
    have habs : ((a2 - b1) / 2) ^ 2 ≤ (x0 - c) ^ 2 := by
      have h2 : ((a2 - b1) / 2) ^ 2 ≤ (c - x0) ^ 2 := pow_le_pow_left₀ hA h1 2
      have h3 : (c - x0) ^ 2 = (x0 - c) ^ 2 := by ring
      linarith [h3 ▸ h2]
    have hmem : (x0 - c) ^ 2 ∈ l.map (fun x => (x - c) ^ 2) :=
      List.mem_map_of_mem _ hx0
    have := List.single_le_sum hnn _ hmem
    rw [sse]
    linarith
  · have h1 : (a2 - b1) / 2 ≤ y0 - c := by linarith
    have habs : ((a2 - b1) / 2) ^ 2 ≤ (y0 - c) ^ 2 := pow_le_pow_left₀ hA h1 2
    have hmem : (y0 - c) ^ 2 ∈ l.map (fun x => (x - c) ^ 2) :=
      List.mem_map_of_mem _ hy0
    have := List.single_le_sum hnn _ hmem
    rw [sse]
    linarith

theorem pop_split_sum (l : List ℚ) (t : ℚ) :
    (lowerPop l t).sum + (upperPop l t).sum = l.sum := by
  have h := pop_split_map_sum (fun x => x) l t
  simpa using h

theorem sse_pop_split (l : List ℚ) (t c : ℚ) :
    sse (lowerPop l t) c + sse (upperPop l t) c = sse l c :=
  pop_split_map_sum (fun x => (x - c) ^ 2) l t

theorem sqsum_pop_split (l : List ℚ) (t : ℚ) :
    sqsum (lowerPop l t) + sqsum (upperPop l t) = sqsum l :=
  pop_split_map_sum (fun x => x ^ 2) l t

theorem length_ne_zero_q {l : List ℚ} (hl : l ≠ []) : (l.length : ℚ) ≠ 0 := by
  simp only [ne_eq, Nat.cast_eq_zero, List.length_eq_zero]
  exact hl

theorem sse_mean_eq (X : List ℚ) (hX : X ≠ []) :
    sse X (meanL X) = sqsum X - X.sum ^ 2 / X.length := by
  have hn := length_ne_zero_q hX
  rw [sse_poly, meanL]
  field_simp
  ring

/-- The decomposition behind "maximizing between-class variance is minimizing
intra-class variance": for a nonempty value list, the between-class variance
of any split is the total sum of squared deviations minus the within-class
one, divided by the count. -/
theorem betweenVar_wSSE (l : List ℚ) (hl : l ≠ []) (t : ℚ) :
    betweenVar l t = (sse l (meanL l) - wSSE l t) / l.length := by
  have hn := length_ne_zero_q hl
  have hlen : (lowerPop l t).length + (upperPop l t).length = l.length :=
    pop_split_length l t
  have hsum : (lowerPop l t).sum + (upperPop l t).sum = l.sum :=
    pop_split_sum l t
  have hq : sqsum (lowerPop l t) + sqsum (upperPop l t) = sqsum l :=
    sqsum_pop_split l t
  rcases eq_or_ne (lowerPop l t) [] with hlo | hlo
  · have h1 : (upperPop l t).length = l.length := by
      rw [hlo] at hlen; simpa using hlen
    have h2 : (upperPop l t).sum = l.sum := by
      rw [hlo] at hsum; simpa using hsum
    have hmean : meanL (upperPop l t) = meanL l := by
      rw [meanL, meanL, h1, h2]
    have h3 : sse (upperPop l t) (meanL (upperPop l t)) = sse l (meanL l) := by
      rw [hmean, ← sse_pop_split l t (meanL l), hlo]
      have hz : sse ([] : List ℚ) (meanL l) = 0 := rfl
      rw [hz, zero_add]
    rw [betweenVar, wSSE, hlo]
    have hz0 : sse ([] : List ℚ) (meanL ([] : List ℚ)) = 0 := rfl
    rw [hz0, zero_add, h3, sub_self, zero_div]
    simp
  · rcases eq_or_ne (upperPop l t) [] with hhi | hhi
    · have h1 : (lowerPop l t).length = l.length := by
        rw [hhi] at hlen; simpa using hlen
      have h2 : (lowerPop l t).sum = l.sum := by
        rw [hhi] at hsum; simpa using hsum
      have hmean : meanL (lowerPop l t) = meanL l := by
        rw [meanL, meanL, h1, h2]
      have h3 : sse (lowerPop l t) (meanL (lowerPop l t)) = sse l (meanL l) := by
        rw [hmean, ← sse_pop_split l t (meanL l), hhi]
        have hz : sse ([] : List ℚ) (meanL l) = 0 := rfl
        rw [hz, add_zero]
      rw [betweenVar, wSSE, hhi]
      have hz0 : sse ([] : List ℚ) (meanL ([] : List ℚ)) = 0 := rfl
      rw [hz0, add_zero, h3, sub_self, zero_div]
      simp
    · have hn0 := length_ne_zero_q hlo
      have hn1 := length_ne_zero_q hhi
      have hlenQ : (l.length : ℚ) =
          (lowerPop l t).length + (upperPop l t).length := by
        exact_mod_cast hlen.symm
      rw [betweenVar, wSSE, sse_mean_eq l hl, sse_mean_eq _ hlo, sse_mean_eq _ hhi,
        meanL, meanL, ← hq, ← hsum, hlenQ]
      field_simp
      ring

theorem wSSE_nonneg (l : List ℚ) (t : ℚ) : 0 ≤ wSSE l t :=
  add_nonneg (sse_nonneg _ _) (sse_nonneg _ _)

theorem mem_lowerPop {l : List ℚ} {t x : ℚ} :
    x ∈ lowerPop l t ↔ x ∈ l ∧ x ≤ t := by
  rw [lowerPop, List.mem_filter]
  simp

theorem mem_upperPop {l : List ℚ} {t x : ℚ} :
    x ∈ upperPop l t ↔ x ∈ l ∧ t < x := by
  rw [upperPop, List.mem_filter]
  simp

/-- Claim C9, amended: the claim's "lies strictly between the two clusters'
value ranges" is weakened to "separates the clusters" (the selected split is
an attained value, so it lands on the top value of the lower cluster rather
than strictly inside the gap), and "well-separated ... of known sizes" is
made precise as: the cluster sizes weighted by the squared cluster widths
stay below the squared gap.  Under those hypotheses the Otsu-selected split
of the Otsu step of `create_burrhole_mask` admits every lower-cluster value
and excludes every upper-cluster value. -/
theorem claim_C9_amended (l : List ℚ) (a1 b1 a2 b2 : ℚ)
    (hcl : ∀ x ∈ l, (a1 ≤ x ∧ x ≤ b1) ∨ (a2 ≤ x ∧ x ≤ b2))
    (hgap : b1 < a2)
    (hne1 : ∃ x ∈ l, x ≤ b1) (hne2 : ∃ x ∈ l, a2 ≤ x)
    (hsep : ((lowerPop l b1).length : ℚ) * (b1 - a1) ^ 2 +
        ((upperPop l b1).length : ℚ) * (b2 - a2) ^ 2 < (a2 - b1) ^ 2) :
    (∀ x ∈ l, x ≤ b1 → x ≤ otsuThreshold l) ∧
    (∀ x ∈ l, a2 ≤ x → otsuThreshold l < x) := by
  obtain ⟨x0, hx0l, hx0b⟩ := hne1
  obtain ⟨y0, hy0l, hy0b⟩ := hne2
  have hl : l ≠ [] := List.ne_nil_of_mem hx0l
  have hn := length_ne_zero_q hl
  have hnpos : (0 : ℚ) < l.length := by
    rcases lt_or_eq_of_le (Nat.cast_nonneg l.length : (0:ℚ) ≤ l.length) with h | h
    · exact h
    · exact absurd h.symm hn
  have hdne : l.dedup ≠ [] := List.ne_nil_of_mem (List.mem_dedup.mpr hx0l)
  obtain ⟨r, hr_eq, hr_memd, hr_max⟩ := argmaxBy_spec (betweenVar l) l.dedup hdne
  have hT : otsuThreshold l = r := by rw [otsuThreshold, hr_eq]; rfl
  have hr_mem : r ∈ l := List.mem_dedup.mp hr_memd
  have hr_ge : ∀ c ∈ l, betweenVar l c ≤ betweenVar l r :=
    fun c hc => hr_max c (List.mem_dedup.mpr hc)
  have hlo_ne : lowerPop l b1 ≠ [] :=
    List.ne_nil_of_mem (mem_lowerPop.mpr ⟨hx0l, hx0b⟩)
  obtain ⟨cs, hcs_eq, hcs_mem, hcs_max⟩ :=
    argmaxBy_spec (fun x => x) (lowerPop l b1) hlo_ne
  obtain ⟨hcs_l, hcs_b1⟩ := mem_lowerPop.mp hcs_mem
  have hcs_top : ∀ x ∈ l, x ≤ b1 → x ≤ cs :=
    fun x hx hxb => hcs_max x (mem_lowerPop.mpr ⟨hx, hxb⟩)
  have hloeq : lowerPop l cs = lowerPop l b1 := by
    rw [lowerPop, lowerPop]
    apply List.filter_congr
    intro x hx
    exact decide_eq_decide.mpr
      ⟨fun h => le_trans h hcs_b1, fun h => hcs_top x hx h⟩
  have hhieq : upperPop l cs = upperPop l b1 := by
    rw [upperPop, upperPop]
    apply List.filter_congr
    intro x hx
    refine decide_eq_decide.mpr ⟨fun h => ?_, fun h => lt_of_le_of_lt hcs_b1 h⟩
    by_contra hxb
    exact absurd (hcs_top x hx (le_of_not_lt hxb)) (not_le.mpr h)
  have hlow_bounds : ∀ x ∈ lowerPop l b1, a1 ≤ x ∧ x ≤ b1 := by
    intro x hx
    obtain ⟨hxl, hxb⟩ := mem_lowerPop.mp hx
    rcases hcl x hxl with h | h
    · exact h
    · exact absurd h.1 (not_le.mpr (lt_of_le_of_lt hxb hgap))
  have hhigh_bounds : ∀ x ∈ upperPop l b1, a2 ≤ x ∧ x ≤ b2 := by
    intro x hx
    obtain ⟨hxl, hxb⟩ := mem_upperPop.mp hx
    rcases hcl x hxl with h | h
    · exact absurd h.2 (not_le.mpr hxb)
    · exact h
  have hw_cs : wSSE l cs < (a2 - b1) ^ 2 / 4 := by
    have h1 : sse (lowerPop l b1) (meanL (lowerPop l b1)) ≤
        ((lowerPop l b1).length : ℚ) * ((b1 - a1) / 2) ^ 2 :=
      le_trans (sse_mean_le _ _) (sse_le_of_bounds _ a1 b1 hlow_bounds)
    have h2 : sse (upperPop l b1) (meanL (upperPop l b1)) ≤
        ((upperPop l b1).length : ℚ) * ((b2 - a2) / 2) ^ 2 :=
      le_trans (sse_mean_le _ _) (sse_le_of_bounds _ a2 b2 hhigh_bounds)
    rw [wSSE, hloeq, hhieq]
    have e1 : ((b1 - a1) / 2) ^ 2 = (b1 - a1) ^ 2 / 4 := by ring
    have e2 : ((b2 - a2) / 2) ^ 2 = (b2 - a2) ^ 2 / 4 := by ring
    rw [e1] at h1
    rw [e2] at h2
    have hq1 : (0:ℚ) ≤ ((lowerPop l b1).length : ℚ) := Nat.cast_nonneg _
    have hq2 : (0:ℚ) ≤ ((upperPop l b1).length : ℚ) := Nat.cast_nonneg _
    nlinarith [h1, h2, hsep]
  have hw_r : wSSE l r ≤ wSSE l cs := by
    have hle := hr_ge cs hcs_l
    rw [betweenVar_wSSE l hl cs, betweenVar_wSSE l hl r] at hle
    have h1 := mul_le_mul_of_nonneg_right hle hnpos.le
    rw [div_mul_cancel₀ _ hn, div_mul_cancel₀ _ hn] at h1
    linarith
  have hgapq : ((a2 - b1) / 2) ^ 2 = (a2 - b1) ^ 2 / 4 := by ring
  rw [hT]
  constructor
  · intro x hx hxb
    by_contra hrx
    push_neg at hrx
    have hx_up : x ∈ upperPop l r := mem_upperPop.mpr ⟨hx, hrx⟩
    have hy_up : y0 ∈ upperPop l r := mem_upperPop.mpr
      ⟨hy0l, lt_of_lt_of_le (lt_trans (lt_of_lt_of_le hrx hxb) hgap) hy0b⟩
    have hmix := sse_mixed_lower (upperPop l r) b1 a2 (le_of_lt hgap)
      x hx_up hxb y0 hy_up hy0b (meanL (upperPop l r))
    have hlow_nonneg := sse_nonneg (lowerPop l r) (meanL (lowerPop l r))
    rw [hgapq] at hmix
    rw [wSSE] at hw_r
    linarith
  · intro y hy hyb
    by_contra hry
    push_neg at hry
    have hy_lo : y ∈ lowerPop l r := mem_lowerPop.mpr ⟨hy, hry⟩
    have hx_lo : x0 ∈ lowerPop l r := mem_lowerPop.mpr
      ⟨hx0l, le_trans hx0b (le_trans (le_of_lt hgap) (le_trans hyb hry))⟩
    have hmix := sse_mixed_lower (lowerPop l r) b1 a2 (le_of_lt hgap)
      x0 hx_lo hx0b y hy_lo hyb (meanL (lowerPop l r))
    have hhigh_nonneg := sse_nonneg (upperPop l r) (meanL (upperPop l r))
    rw [hgapq] at hmix
    rw [wSSE] at hw_r
    linarith

theorem otsuPair_lower0 : lowerPop [(0 : ℚ), 10] 0 = [0] := by
  rw [lowerPop]
  norm_num [List.filter_cons]

theorem otsuPair_upper0 : upperPop [(0 : ℚ), 10] 0 = [10] := by
  rw [upperPop]
  norm_num [List.filter_cons]

theorem otsuPair_lower10 : lowerPop [(0 : ℚ), 10] 10 = [0, 10] := by
  rw [lowerPop]
  norm_num [List.filter_cons]

theorem otsuPair_upper10 : upperPop [(0 : ℚ), 10] 10 = [] := by
  rw [upperPop]
  norm_num [List.filter_cons]

theorem otsuPair_var0 : betweenVar [(0 : ℚ), 10] 0 = 25 := by
  rw [betweenVar, otsuPair_lower0, otsuPair_upper0]
  norm_num [meanL]

theorem otsuPair_var10 : betweenVar [(0 : ℚ), 10] 10 = 0 := by
  rw [betweenVar, otsuPair_lower10, otsuPair_upper10]
  norm_num [meanL]

theorem otsuPair_threshold : otsuThreshold [(0 : ℚ), 10] = 0 := by
  have h10 : ([(10 : ℚ)]).dedup = [10] := by
    rw [List.dedup_cons_of_not_mem (List.not_mem_nil 10), List.dedup_nil]
  have hd : ([(0 : ℚ), 10]).dedup = [0, 10] := by
    rw [List.dedup_cons_of_not_mem, h10]
    norm_num
  rw [otsuThreshold, hd]
  show (some ([(10 : ℚ)].foldl
    (fun b c => if betweenVar [0, 10] b < betweenVar [0, 10] c then c else b)
    0)).getD 0 = 0
  rw [List.foldl_cons, List.foldl_nil, if_neg]
  · rfl
  · rw [otsuPair_var0, otsuPair_var10]
    norm_num

/-- Claim C9, counterexample: the two-value volume `[0, 10]` is bimodal with
well-separated clusters `{0}` (value range `[0,0]`) and `{10}` (value range
`[10,10]`), but the Otsu-selected split is the attained value 0 — the top of
the lower cluster — which does not lie strictly between the two ranges. -/
theorem claim_C9_counterexample :
    (∀ x ∈ [(0 : ℚ), 10], (0 ≤ x ∧ x ≤ 0) ∨ (10 ≤ x ∧ x ≤ 10)) ∧
    ((lowerPop [(0 : ℚ), 10] 0).length : ℚ) * (0 - 0) ^ 2 +
      ((upperPop [(0 : ℚ), 10] 0).length : ℚ) * (10 - 10) ^ 2 < (10 - 0) ^ 2 ∧
    otsuThreshold [(0 : ℚ), 10] = 0 ∧
    ¬(0 < otsuThreshold [(0 : ℚ), 10] ∧ otsuThreshold [(0 : ℚ), 10] < 10) := by
  refine ⟨?_, ?_, otsuPair_threshold, ?_⟩
  · intro x hx
    rcases List.mem_cons.mp hx with rfl | hx
    · exact Or.inl ⟨le_refl 0, le_refl 0⟩
    · rcases List.mem_cons.mp hx with rfl | hx
      · exact Or.inr ⟨le_refl 10, le_refl 10⟩
      · exact absurd hx (List.not_mem_nil x)
  · rw [otsuPair_lower0, otsuPair_upper0]
    norm_num
  · rw [otsuPair_threshold]
    intro h
    exact absurd h.1 (lt_irrefl 0)

theorem claim_C9_witness :
    (∀ x ∈ [(0 : ℚ), 10], x ≤ 0 → x ≤ otsuThreshold [(0 : ℚ), 10]) ∧
    (∀ x ∈ [(0 : ℚ), 10], 10 ≤ x → otsuThreshold [(0 : ℚ), 10] < x) := by
  apply claim_C9_amended [(0 : ℚ), 10] 0 0 10 10
  · intro x hx
    rcases List.mem_cons.mp hx with rfl | hx
    · exact Or.inl ⟨le_refl 0, le_refl 0⟩
    · rcases List.mem_cons.mp hx with rfl | hx
      · exact Or.inr ⟨le_refl 10, le_refl 10⟩
      · exact absurd hx (List.not_mem_nil x)
  · norm_num
  · exact ⟨0, List.mem_cons_self 0 [10], le_refl 0⟩
  · refine ⟨10, ?_, le_refl 10⟩
    exact List.mem_cons_of_mem 0 (List.mem_cons_self 10 [])
  · rw [otsuPair_lower0, otsuPair_upper0]
    norm_num

theorem headCap_vals (g : Geometry) (d : ℚ) (p : Idx) :
    headCap g d p = 0 ∨ headCap g d p = 1 := by
  rw [headCap]
  split_ifs <;> simp

/-- Claim C2: on grid-compatible inputs, `create_burrhole_mask` computes, in
this order: clamp the difference to non-negative values, multiply by the
bone mask, binarize above the Otsu-selected split, close with the radius-1
element on every axis, keep only components of at least 50 voxels, and
intersect with the head-cap mask — hence every foreground voxel of the final
mask lies inside the head-cap mask. -/
theorem claim_C2 (preop diff : Volume) (_hgeom : preop.geom = diff.geom) :
    (createBurrholeMask preop diff).geom = preop.geom ∧
    (∀ p, bhDiffBone preop diff p = max (diff.vals p) 0 * bhBone preop p) ∧
    (∀ p, bhCand preop diff p = 1 ↔
      inB preop.geom.size p ∧ bhOtsu preop diff < bhDiffBone preop diff p) ∧
    bhClosed preop diff = closing preop.geom.size 1 (bhCand preop diff) ∧
    (∀ p, bhCleaned preop diff p = 1 ↔
      inB preop.geom.size p ∧ bhClosed preop diff p = 1 ∧
      MIN_COMPONENT_SIZE ≤
        (comp (fgSet preop.geom.size (bhClosed preop diff)) p).card) ∧
    (∀ p, (createBurrholeMask preop diff).vals p =
      bhCleaned preop diff p * headCap preop.geom HEAD_CAP_DEPTH_MM p) ∧
    (∀ p, (createBurrholeMask preop diff).vals p = 1 →
      headCap preop.geom HEAD_CAP_DEPTH_MM p = 1) := by
  refine ⟨rfl, fun p => rfl, ?_, rfl, ?_, fun p => rfl, ?_⟩
  · intro p
    rw [bhCand]
    split_ifs with h
    · exact iff_of_true rfl h
    · exact iff_of_false one_ne_zero.symm h
  · intro p
    rw [bhCleaned, componentFilter_eq_one,
      zero_one_ne_iff (show bhClosed preop diff p = 0 ∨
        bhClosed preop diff p = 1 from closing_vals _ _ _ _)]
  · intro p hp
    rcases headCap_vals preop.geom HEAD_CAP_DEPTH_MM p with h0 | h1
    · rw [show (createBurrholeMask preop diff).vals p =
        bhCleaned preop diff p * headCap preop.geom HEAD_CAP_DEPTH_MM p
        from rfl, h0, mul_zero] at hp
      exact absurd hp zero_ne_one
    · exact h1

theorem claim_C2_witness :
    volA.geom = volA.geom ∧
    (createBurrholeMask volA volA).geom = volA.geom ∧
    ∀ p, (createBurrholeMask volA volA).vals p = 1 →
      headCap volA.geom HEAD_CAP_DEPTH_MM p = 1 := by
  have h := claim_C2 volA volA rfl
  exact ⟨rfl, h.1, h.2.2.2.2.2.2⟩

/-- For an orthonormal direction matrix and nonzero spacing, `contIndex` is a
right inverse of `physPoint`: the sample is taken exactly at the mapped
physical point. -/
theorem physPoint_contIndex (g : Geometry) (hO : orthonormalDir g.direction)
    (hs : ∀ c, g.spacing c ≠ 0) (y : Vec3) :
    physPoint g (contIndex g y) = y := by
  have hcancel : ∀ (a X : ℚ), a ≠ 0 → a * (X / a) = X := by
    intro a X ha
    field_simp
  have e00 := hO.2 0 0
  have e01 := hO.2 0 1
  have e02 := hO.2 0 2
  have e10 := hO.2 1 0
  have e11 := hO.2 1 1
  have e12 := hO.2 1 2
  have e20 := hO.2 2 0
  have e21 := hO.2 2 1
  have e22 := hO.2 2 2
  simp only [Fin.sum_univ_three] at e00 e01 e02 e10 e11 e12 e20 e21 e22
  rw [if_neg (by decide)] at e01 e02 e10 e12 e20 e21
  rw [if_pos trivial] at e00 e11 e22
  funext r
  fin_cases r
  · show physPoint g (contIndex g y) 0 = y 0
    simp only [physPoint, contIndex, Fin.sum_univ_three]
    rw [hcancel _ _ (hs 0), hcancel _ _ (hs 1), hcancel _ _ (hs 2)]
    linear_combination (y 0 - g.origin 0) * e00 + (y 1 - g.origin 1) * e01 +
      (y 2 - g.origin 2) * e02
  · show physPoint g (contIndex g y) 1 = y 1
    simp only [physPoint, contIndex, Fin.sum_univ_three]
    rw [hcancel _ _ (hs 0), hcancel _ _ (hs 1), hcancel _ _ (hs 2)]
    linear_combination (y 0 - g.origin 0) * e10 + (y 1 - g.origin 1) * e11 +
      (y 2 - g.origin 2) * e12
  · show physPoint g (contIndex g y) 2 = y 2
    simp only [physPoint, contIndex, Fin.sum_univ_three]
    rw [hcancel _ _ (hs 0), hcancel _ _ (hs 1), hcancel _ _ (hs 2)]
    linear_combination (y 0 - g.origin 0) * e20 + (y 1 - g.origin 1) * e21 +
      (y 2 - g.origin 2) * e22

/-- Claim C8: the resampled volume carries exactly the reference geometry;
each output voxel holds the source intensity trilinearly interpolated at a
continuous index whose physical point is exactly the voxel's physical
coordinate mapped through the transform into source space; and every voxel
whose mapped point falls outside the source grid receives the default fill
value 0 (the value both scripts configure). -/
theorem claim_C8 (src : Volume) (T : RigidTransform) (ref : Geometry)
    (hO : orthonormalDir src.geom.direction)
    (hs : ∀ c, src.geom.spacing c ≠ 0) :
    (resample src T ref 0).geom = ref ∧
    ∀ p : Idx,
      physPoint src.geom
          (contIndex src.geom (applyT T (physPoint ref (idxVec p)))) =
        applyT T (physPoint ref (idxVec p)) ∧
      (insideGrid src.geom
          (contIndex src.geom (applyT T (physPoint ref (idxVec p)))) →
        (resample src T ref 0).vals p =
          trilinear src
            (contIndex src.geom (applyT T (physPoint ref (idxVec p))))) ∧
      (¬ insideGrid src.geom
          (contIndex src.geom (applyT T (physPoint ref (idxVec p)))) →
        (resample src T ref 0).vals p = 0) := by
  refine ⟨rfl, fun p => ⟨physPoint_contIndex src.geom hO hs _, ?_, ?_⟩⟩
  · intro h
    show (if insideGrid src.geom
        (contIndex src.geom (applyT T (physPoint ref (idxVec p))))
      then trilinear src (contIndex src.geom (applyT T (physPoint ref (idxVec p))))
      else 0) = _
    rw [if_pos h]
  · intro h
    show (if insideGrid src.geom
        (contIndex src.geom (applyT T (physPoint ref (idxVec p))))
      then trilinear src (contIndex src.geom (applyT T (physPoint ref (idxVec p))))
      else 0) = 0
    rw [if_neg h]

theorem idDir_ortho : orthonormalDir idDir := by
  constructor
  · intro c c'
    fin_cases c <;> fin_cases c' <;>
      simp [idDir, Fin.sum_univ_three, Matrix.vecHead, Matrix.vecTail]
  · intro r r'
    fin_cases r <;> fin_cases r' <;>
      simp [idDir, Fin.sum_univ_three, Matrix.vecHead, Matrix.vecTail]

theorem claim_C8_witness :
    (resample volA idTransform volA.geom 0).geom = volA.geom ∧
    ∀ p : Idx,
      physPoint volA.geom
          (contIndex volA.geom (applyT idTransform (physPoint volA.geom (idxVec p)))) =
        applyT idTransform (physPoint volA.geom (idxVec p)) ∧
      (insideGrid volA.geom
          (contIndex volA.geom (applyT idTransform (physPoint volA.geom (idxVec p)))) →
        (resample volA idTransform volA.geom 0).vals p =
          trilinear volA
            (contIndex volA.geom (applyT idTransform (physPoint volA.geom (idxVec p))))) ∧
      (¬ insideGrid volA.geom
          (contIndex volA.geom (applyT idTransform (physPoint volA.geom (idxVec p)))) →
        (resample volA idTransform volA.geom 0).vals p = 0) := by
  apply claim_C8 volA idTransform volA.geom
  · exact idDir_ortho
  · intro c
    fin_cases c <;> norm_num [volA]

theorem processCase_other {α : Type} (outs : List String)
    (runOut : String → String → α) (c0 : String) (fs : FS α) {c : String}
    (hne : c ≠ c0) (f : String) :
    processCase outs runOut c0 fs (c, f) = fs (c, f) := by
  rw [processCase, if_neg]
  intro h
  exact hne h.1

theorem runBatch_processed_subset {α : Type} (outs : List String)
    (runOut : String → String → α) :
    ∀ (l : List String) (fs : FS α), (runBatch outs runOut l fs).2 ⊆ l := by
  intro l
  induction l with
  | nil => intro fs x hx; exact absurd hx (List.not_mem_nil x)
  | cons c0 rest ih =>
    intro fs x hx
    rw [runBatch] at hx
    split_ifs at hx with hex
    · exact List.mem_cons_of_mem c0 (ih fs hx)
    · rcases List.mem_cons.mp hx with rfl | hx
      · exact List.mem_cons_self x rest
      · exact List.mem_cons_of_mem c0 (ih _ hx)

theorem runBatch_frame {α : Type} (outs : List String)
    (runOut : String → String → α) :
    ∀ (l : List String) (fs : FS α) (c : String), c ∉ l →
      ∀ f, (runBatch outs runOut l fs).1 (c, f) = fs (c, f) := by
  intro l
  induction l with
  | nil => intro fs c _ f; rfl
  | cons c0 rest ih =>
    intro fs c hc f
    have hne : c ≠ c0 := fun h => hc (h ▸ List.mem_cons_self c0 rest)
    have hcr : c ∉ rest := fun h => hc (List.mem_cons_of_mem c0 h)
    rw [runBatch]
    split_ifs with hex
    · exact ih fs c hcr f
    · show (runBatch outs runOut rest (processCase outs runOut c0 fs)).1 (c, f) =
        fs (c, f)
      rw [ih _ c hcr f, processCase_other outs runOut c0 fs hne f]

theorem outputsExist_congr {α : Type} (outs : List String) {fs fs' : FS α}
    {c : String} (h : ∀ f, fs' (c, f) = fs (c, f)) :
    outputsExist outs fs' c ↔ outputsExist outs fs c := by
  rw [outputsExist, outputsExist]
  constructor
  · intro hx f hf; rw [← h f]; exact hx f hf
  · intro hx f hf; rw [h f]; exact hx f hf

theorem runBatch_spec {α : Type} (outs : List String)
    (runOut : String → String → α) :
    ∀ (cases : List String) (fs : FS α), cases.Nodup →
      ∀ c ∈ cases,
        (outputsExist outs fs c →
          c ∉ (runBatch outs runOut cases fs).2 ∧
          ∀ f, (runBatch outs runOut cases fs).1 (c, f) = fs (c, f)) ∧
        (¬ outputsExist outs fs c → c ∈ (runBatch outs runOut cases fs).2) := by
  intro cases
  induction cases with
  | nil => intro fs _ c hc; exact absurd hc (List.not_mem_nil c)
  | cons c0 rest ih =>
    intro fs hnd c hc
    have hnd0 : c0 ∉ rest := (List.nodup_cons.mp hnd).1
    have hndr : rest.Nodup := (List.nodup_cons.mp hnd).2
    rcases List.mem_cons.mp hc with rfl | hcr
    · constructor
      · intro hex
        rw [runBatch, if_pos hex]
        exact ⟨fun h => hnd0 (runBatch_processed_subset outs runOut rest fs h),
          fun f => runBatch_frame outs runOut rest fs c hnd0 f⟩
      · intro hex
        rw [runBatch, if_neg hex]
        exact List.mem_cons_self c _
    · have hne : c ≠ c0 := fun h => hnd0 (h ▸ hcr)
      constructor
      · intro hex
        rw [runBatch]
        split_ifs with hex0
        · exact (ih fs hndr c hcr).1 hex
        · have hfs' : ∀ f, processCase outs runOut c0 fs (c, f) = fs (c, f) :=
            fun f => processCase_other outs runOut c0 fs hne f
          have hex' : outputsExist outs (processCase outs runOut c0 fs) c :=
            (outputsExist_congr outs hfs').mpr hex
          obtain ⟨hmem, hval⟩ :=
            (ih (processCase outs runOut c0 fs) hndr c hcr).1 hex'
          refine ⟨?_, fun f => by rw [hval f, hfs' f]⟩
          intro hmem'
          rcases List.mem_cons.mp hmem' with h | h
          · exact hne h
          · exact hmem h
      · intro hex
        rw [runBatch]
        split_ifs with hex0
        · exact (ih fs hndr c hcr).2 hex
        · have hfs' : ∀ f, processCase outs runOut c0 fs (c, f) = fs (c, f) :=
            fun f => processCase_other outs runOut c0 fs hne f
          have hex' : ¬ outputsExist outs (processCase outs runOut c0 fs) c :=
            fun h => hex ((outputsExist_congr outs hfs').mp h)
          exact List.mem_cons_of_mem c0
            ((ih (processCase outs runOut c0 fs) hndr c hcr).2 hex')

/-- Claim C10: for each of the three batch drivers (their expected output
files: the auto-annotation mask for `binarize.py`, both the transformed
volume and the transform file for `register.py`, the difference volume for
`subtract.py`), a case whose expected output files all exist initially is
skipped — no computation runs for it and all of its files are left exactly
as they were — while every case whose expected outputs are not all present
is still processed. -/
theorem claim_C10 :
    ∀ (α : Type) (runOut : String → String → α) (cases : List String)
      (fs : FS α), cases.Nodup →
      ∀ outs ∈ [binarizeOutputs, registerOutputs, subtractOutputs],
        ∀ c ∈ cases,
          (outputsExist outs fs c →
            c ∉ (runBatch outs runOut cases fs).2 ∧
            ∀ f, (runBatch outs runOut cases fs).1 (c, f) = fs (c, f)) ∧
          (¬ outputsExist outs fs c → c ∈ (runBatch outs runOut cases fs).2) :=
  fun _ runOut cases fs hnd outs _ => runBatch_spec outs runOut cases fs hnd

theorem claim_C10_witness :
    (["a", "b"] : List String).Nodup ∧
    ((outputsExist binarizeOutputs fsEx "a" →
      "a" ∉ (runBatch binarizeOutputs (fun _ _ => 1) ["a", "b"] fsEx).2 ∧
      ∀ f, (runBatch binarizeOutputs (fun _ _ => 1) ["a", "b"] fsEx).1 ("a", f)
        = fsEx ("a", f)) ∧
    (¬ outputsExist binarizeOutputs fsEx "a" →
      "a" ∈ (runBatch binarizeOutputs (fun _ _ => 1) ["a", "b"] fsEx).2)) := by
  refine ⟨by decide, ?_⟩
  exact claim_C10 ℕ (fun _ _ => 1) ["a", "b"] fsEx (by decide) binarizeOutputs
    (List.mem_cons_self _ _) "a" (List.mem_cons_self _ _)

end BurrholePipe
